import Mathlib

/-!
A verification development for `StarWenJuan.py`, an AI-driven questionnaire
autofill tool.  The Python source is shallowly embedded: each relevant Python
function is translated into an executable Lean definition over `List Char`
(Python `str`), `ℤ`/`ℚ` (Python `int`/`float`, modelled exactly over the
rationals), `Except` (raised exceptions) and `Option` (Python `None`).
Randomness and LLM completions are supplied as explicit oracles.

Conventions used throughout:
* Python whitespace tests (`str.strip`, regex `\s`) are modelled on the ASCII
  whitespace characters; regex `\d` and `str.isdigit` on the ASCII digits.
* `re.sub` is modelled by its documented leftmost, non-overlapping scan.
-/

namespace StarWenJuan

/-- ASCII whitespace, the model of Python `str.strip()` / regex `\s`. -/
def isPySpace (c : Char) : Bool :=
  c = ' ' || c = '\t' || c = '\n' || c = '\r' || c = Char.ofNat 11 || c = Char.ofNat 12

/-- `startsL pat s` : `pat` occurs at the start of `s` (Python `str.startswith`). -/
def startsL : List Char → List Char → Bool
  | [], _ => true
  | _ :: _, [] => false
  | p :: ps, c :: cs => p = c && startsL ps cs

/-- `containsSub pat s` : `pat` occurs somewhere in `s` (Python `in` on `str`). -/
def containsSub (pat : List Char) : List Char → Bool
  | [] => startsL pat []
  | c :: cs => startsL pat (c :: cs) || containsSub pat cs

/-- Remove trailing Python whitespace (the right half of `str.strip()`). -/
def stripRightL : List Char → List Char
  | [] => []
  | c :: cs =>
    match stripRightL cs with
    | [] => if isPySpace c then [] else [c]
    | r => c :: r

/-- Python `str.strip()`: drop leading and trailing whitespace. -/
def pyStrip (s : List Char) : List Char :=
  stripRightL (s.dropWhile isPySpace)

/-- The reasoning-start marker of `clean_response`. -/
def thinkOpen : List Char := ['<', 't', 'h', 'i', 'n', 'k', '>']

/-- The reasoning-end marker of `clean_response`. -/
def thinkClose : List Char := ['<', '/', 't', 'h', 'i', 'n', 'k', '>']

/-- The remainder of `s` strictly after the first occurrence of `</think>`,
or `none` when there is no occurrence.  Used to model the non-greedy tail of
`re.sub(r"<think>.*?</think>", ...)`. -/
def splitAfterClose : List Char → Option (List Char)
  | [] => none
  | c :: cs =>
    if startsL thinkClose (c :: cs) then some ((c :: cs).drop 8)
    else splitAfterClose cs

/-- Fuelled worker for `removePaired`; the fuel only pays for the leftmost
scan and is always instantiated with the length of the string. -/
def removePairedF : ℕ → List Char → List Char
  | 0, s => s
  | _ + 1, [] => []
  | f + 1, c :: cs =>
    if startsL thinkOpen (c :: cs) then
      match splitAfterClose ((c :: cs).drop 7) with
      | some rest => removePairedF f rest
      | none => c :: cs
    else c :: removePairedF f cs

/-- `re.sub(r"<think>.*?</think>", "", s, flags=re.DOTALL)`: a leftmost
non-overlapping scan removing each `<think>` together with everything up to
the first following `</think>`.  When an occurrence of `<think>` has no
following `</think>`, no occurrence further right can have one either, so the
rest of the string is kept unchanged. -/
def removePaired (s : List Char) : List Char := removePairedF s.length s

/-- `re.sub(r"<think>.*", "", s, flags=re.DOTALL)`: delete from the first
occurrence of `<think>` to the end of the string. -/
def dropFromOpen : List Char → List Char
  | [] => []
  | c :: cs => if startsL thinkOpen (c :: cs) then [] else c :: dropFromOpen cs

/-- Fuelled worker for `removeClose` (fuel = length of the string). -/
def removeCloseF : ℕ → List Char → List Char
  | 0, s => s
  | _ + 1, [] => []
  | f + 1, c :: cs =>
    if startsL thinkClose (c :: cs) then removeCloseF f ((c :: cs).drop 8)
    else c :: removeCloseF f cs

/-- `re.sub(r"</think>", "", s)`: remove every occurrence of `</think>` in a
single leftmost non-overlapping pass. -/
def removeClose (s : List Char) : List Char := removeCloseF s.length s

/-- Number of newline characters in `s`. -/
def nlCount (s : List Char) : ℕ := s.countP (fun c => c = '\n')

/-- The part of `s` strictly before its first newline. -/
def beforeFirstNl (s : List Char) : List Char := s.takeWhile (fun c => c != '\n')

/-- The part of `s` strictly after its last newline (`[]` when `s` has none). -/
def afterLastNl : List Char → List Char
  | [] => []
  | c :: cs => if c = '\n' ∧ nlCount cs = 0 then cs else afterLastNl cs

/-- Action of `re.sub(r"\n\s*\n", "\n", s)` on one maximal whitespace run `w`:
the regex matches exactly when the run holds at least two newlines, and the
leftmost greedy match then spans from the first to the last newline of the
run, so that segment is replaced by a single newline. -/
def collapseRun (w : List Char) : List Char :=
  if 2 ≤ nlCount w then beforeFirstNl w ++ '\n' :: afterLastNl w else w

/-- Fuelled worker for `collapseWs` (fuel = length of the string). -/
def collapseF : ℕ → List Char → List Char
  | 0, s => s
  | _ + 1, [] => []
  | f + 1, c :: cs =>
    if isPySpace c then
      collapseRun (c :: cs.takeWhile isPySpace) ++ collapseF f (cs.dropWhile isPySpace)
    else c :: collapseF f cs

/-- `re.sub(r"\n\s*\n", "\n", s)`: since `\s` cannot cross a non-whitespace
character, every match lies inside one maximal whitespace run, and the scan
rewrites each run independently by `collapseRun`. -/
def collapseWs (s : List Char) : List Char := collapseF s.length s

/-- `clean_response` (StarWenJuan.py lines 105-116) on the underlying
character list: (1) if the stripped text starts with `<think>` and `</think>`
never occurs, discard everything; otherwise (2) remove paired
`<think>…</think>` spans, (3) delete a trailing unpaired `<think>…` span,
(4) remove stray `</think>` markers, (5) collapse blank lines on the stripped
text and strip again. -/
def clean_list (s : List Char) : List Char :=
  if startsL thinkOpen (pyStrip s) && !containsSub thinkClose s then []
  else
    pyStrip (collapseWs (pyStrip (removeClose (dropFromOpen (removePaired s)))))

/-- `clean_response` on Python strings. -/
def clean_response (s : String) : String := String.mk (clean_list s.data)

/-! ### `ask_ai_for_answer` (lines 156-220)

The LLM transport is an oracle: each element of `attempts` is the behaviour of
one `client.chat.completions.create` call, mapping the user prompt to either a
raised exception (`Except.error`) or the completion text (`Except.ok`).  The
returned pair is the answer together with the number of LLM requests issued. -/

/-- The selection kinds whose answers must contain a digit (line 200). -/
def selectionKinds : List String := ["single", "scale", "matrix", "dropdown"]

/-- The question types that get a type-specific prompt (lines 161-174). -/
def knownKinds : List String :=
  ["single", "multiple", "text", "scale", "matrix", "dropdown", "numeric_matrix"]

/-- The per-kind user prompt (lines 161-174); `none` models the `else` branch
(line 175) that returns `"1"` before any request is made. -/
def buildPrompt (question options qtype persona : String) : Option String :=
  if qtype = "single" then
    some ("根据以下人设回答单选题。人设：" ++ persona ++ "\n\n问题：" ++ question ++
      "\n选项：" ++ options ++ "\n请直接返回选项编号(如：1)，不要解释。")
  else if qtype = "multiple" then
    some ("根据以下人设回答多选题。人设：" ++ persona ++ "\n\n问题：" ++ question ++
      "\n选项：" ++ options ++ "\n请返回所选选项编号，用逗号分隔(如：1,3,5)，不要解释。")
  else if qtype = "text" then
    some ("根据以下人设回答填空题。人设：" ++ persona ++ "\n\n问题：" ++ question ++
      "\n请提供一个简短、真实的答案，不要解释。字数不超过100字，不要使用emoji表情")
  else if qtype = "scale" then
    some ("根据以下人设回答量表题。人设：" ++ persona ++ "\n\n问题：" ++ question ++
      "\n选项：" ++ options ++ "\n请直接返回选项编号(如：3)，不要解释。")
  else if qtype = "matrix" then
    some ("根据以下人设回答矩阵题的一行。人设：" ++ persona ++ "\n\n问题：" ++ question ++
      "\n选项：" ++ options ++ "\n请直接返回选项编号(如：2)，不要解释。")
  else if qtype = "dropdown" then
    some ("根据以下人设回答下拉框题。人设：" ++ persona ++ "\n\n问题：" ++ question ++
      "\n选项：" ++ options ++ "\n请直接返回选项编号(如：2)，不要解释。")
  else if qtype = "numeric_matrix" then
    some ("根据以下人设回答数字矩阵题。人设：" ++ persona ++ "\n\n问题：" ++ question ++
      "\n选项：" ++ options ++
      "\n请为每个选项分配一个0-10的数字（不可以是小数，要保证这几个数字加起来等于10），表示比例或程度，用逗号分隔，不要解释。")
  else none

/-- The fallbacks after all retries are exhausted (lines 214-220). -/
def fallbackAnswer (qtype : String) : String :=
  if qtype = "multiple" then "1" else if qtype = "text" then "无" else "1"

/-- Retry loop of `ask_ai_for_answer`; `calls` counts LLM requests so far. -/
def askAiGo (question options qtype persona : String) (calls : ℕ) :
    List (String → Except Unit String) → String × ℕ
  | [] => (fallbackAnswer qtype, calls)
  | llm :: rest =>
    match buildPrompt question options qtype persona with
    | none => ("1", calls)
    | some prompt =>
      match llm prompt with
      | Except.error _ => askAiGo question options qtype persona (calls + 1) rest
      | Except.ok content =>
        if (clean_list (pyStrip content.data)).isEmpty ||
            (pyStrip (clean_list (pyStrip content.data))).isEmpty then
          askAiGo question options qtype persona (calls + 1) rest
        else if selectionKinds.contains qtype &&
            !((clean_list (pyStrip content.data)).any Char.isDigit) then
          askAiGo question options qtype persona (calls + 1) rest
        else (String.mk (clean_list (pyStrip content.data)), calls + 1)

/-- `ask_ai_for_answer(question_text, options, question_type, persona)`
(lines 156-220), with the LLM oracle as the `attempts` list (its length plays
the role of `max_retries`). -/
def ask_ai_for_answer (question options qtype persona : String)
    (attempts : List (String → Except Unit String)) : String × ℕ :=
  askAiGo question options qtype persona 0 attempts

/-! ### `generate_persona` (lines 119-153) -/

/-- The hardcoded default persona (line 152). -/
def default_persona : String := "一个普通的大学生，性格开朗，喜欢学习和运动"

/-- `generate_persona` (lines 119-153).  Each list element is the outcome of
one API call (`Except.error` = raised exception, `Except.ok` = completion
text); the list has one entry per allowed attempt, so `attempt ==
max_retries - 1` corresponds to an empty tail.  A rejected-by-length final
attempt runs off the `for` loop, which in Python returns `None`: hence the
`Option` result, with `none` for Python's `None`. -/
def generate_persona : List (Except Unit String) → Option String
  | [] => none
  | outcome :: rest =>
    match outcome with
    | Except.ok content =>
      let persona := clean_list (pyStrip content.data)
      if persona.length < 20 then generate_persona rest
      else some (String.mk persona)
    | Except.error _ =>
      if rest.isEmpty then some default_persona
      else generate_persona rest

/-! ### Integer and float parsing (Python `int(...)` / `float(...)`)

Modelled on ASCII digit strings with an optional sign, the shapes the
handlers actually meet; Python's additional Unicode-digit and underscore
forms are outside the model. -/

/-- Value of a non-empty all-digit string, `none` otherwise. -/
def digitsVal (s : List Char) : Option ℕ :=
  if s.isEmpty || !(s.all Char.isDigit) then none
  else some (s.foldl (fun a c => a * 10 + (c.toNat - 48)) 0)

/-- Python `int(x)` on a string: strip, optional sign, non-empty digits. -/
def pyIntL (s : List Char) : Option ℤ :=
  match pyStrip s with
  | '+' :: ds => (digitsVal ds).map (fun n => (n : ℤ))
  | '-' :: ds => (digitsVal ds).map (fun n => -(n : ℤ))
  | ds => (digitsVal ds).map (fun n => (n : ℤ))

/-- Python `s.split(",")`: split at every comma, keeping empty pieces. -/
def splitComma : List Char → List (List Char)
  | [] => [[]]
  | c :: cs =>
    if c = ',' then [] :: splitComma cs
    else
      match splitComma cs with
      | [] => [[c]]
      | g :: gs => (c :: g) :: gs

/-- Value of a possibly-empty all-digit string (empty = 0), used for the two
sides of a decimal point. -/
def digitsValD (s : List Char) : ℕ :=
  s.foldl (fun a c => a * 10 + (c.toNat - 48)) 0

/-- Python `float(x)` on a stripped digits-and-dots string, as an exact
rational: no dot = integer, one dot = decimal, two or more dots = `ValueError`
(`none`).  The handlers only compare, clamp and pad these values, so the
rational model is exact. -/
def pyFloatL (t : List Char) : Option ℚ :=
  let dots := t.countP (fun c => c = '.')
  if dots = 0 then (digitsVal t).map (fun n => (n : ℚ))
  else if dots = 1 then
    let ip := t.takeWhile (fun c => c != '.')
    let fp := (t.dropWhile (fun c => c != '.')).drop 1
    if (ip.all Char.isDigit) && (fp.all Char.isDigit) then
      some ((digitsValD ip : ℚ) + (digitsValD fp : ℚ) / ((10 : ℚ) ^ fp.length))
    else none
  else none

/-! ### Question handlers (the Surface click/fill targets become the result
values: a list of clicked option indices, a clicked column, or the list of
numbers written into the inputs). -/

/-- `multiple` (lines 307-322): parse the comma list of integers; on success
click every listed index that lies in `1..numOptions` (in list order); if the
list comprehension raises, click option 1. -/
def multiple (answer : String) (numOptions : ℕ) : List ℤ :=
  match (splitComma answer.data).mapM (fun x => pyIntL (pyStrip x)) with
  | some choices =>
    choices.foldl
      (fun acc c => if 1 ≤ c ∧ c ≤ (numOptions : ℤ) then acc ++ [c] else acc) []
  | none => [1]

/-- `matrix` (lines 351-358), the per-sub-row click: parse the answer as an
integer `c`; click column `c` when `2 ≤ c ≤ colCount`, otherwise column 2;
an unparsable answer also clicks column 2. -/
def matrix (answer : String) (colCount : ℕ) : ℤ :=
  match pyIntL answer.data with
  | some c => if 2 ≤ c ∧ c ≤ (colCount : ℤ) then c else 2
  | none => 2

/-- The filter of the `numeric_matrix` list comprehension (line 416):
`x.strip().replace(".", "").isdigit()`. -/
def componentKeeps (x : List Char) : Bool :=
  let u := (pyStrip x).filter (fun c => c != '.')
  !u.isEmpty && u.all Char.isDigit

/-- Clamp to `[0, 10]` (line 419). -/
def clampQ (q : ℚ) : ℚ := max 0 (min 10 q)

/-- `numeric_matrix` (lines 412-442), the numbers written into the
`numInputs` bound inputs.  `rand i` is the `i`-th value drawn from
`random.randint(1, 8)`.  Parse the kept comma components as floats (a
component like `"1.2.3"` passes the filter but makes `float` raise, sending
the whole `try` block to the `except` branch, which fills every input with a
fresh random value); clamp each parsed value to `[0, 10]`; pad with random
values until one per input; truncate extras. -/
def numeric_matrix (answer : String) (numInputs : ℕ) (rand : ℕ → ℤ) : List ℚ :=
  let comps := (splitComma answer.data).filter componentKeeps
  match comps.mapM (fun x => pyFloatL (pyStrip x)) with
  | some nums =>
    let clamped := nums.map clampQ
    let padded := clamped ++ (List.range (numInputs - clamped.length)).map
      (fun i => ((rand i : ℤ) : ℚ))
    padded.take numInputs
  | none => (List.range numInputs).map (fun i => ((rand i : ℤ) : ℚ))

/-! ### `wait_for_completion` (lines 523-624)

One `PageObs` is what the Surface reports during one iteration of the polling
loop; `preUrl` is the location read by the fast-path check before the loop and
`finalUrl` the one read by the extra check after the timeout.  The second
component of the result counts how many poll iterations ran before return. -/

structure PageObs where
  url : String
  successIndicators : Bool
  bodyText : String
  title : String

/-- Keywords looked for in the lowercased current location (lines 550-560). -/
def urlKeywords : List String :=
  ["complete", "完成", "finish", "success", "thank", "end", "result"]

/-- Phrases looked for in the lowercased page text (line 580). -/
def textKeywords : List String :=
  ["提交成功", "感谢您的参与", "问卷已提交", "thank you", "complete", "success"]

/-- Keywords looked for in the lowercased page title (lines 594-602). -/
def titleKeywords : List String :=
  ["完成", "成功", "感谢", "complete", "success", "thank"]

/-- ASCII lowercasing, the model of Python `str.lower()` /
JavaScript `toLowerCase()` on the keyword alphabet. -/
def lowerS (s : String) : String := String.mk (s.data.map Char.toLower)

/-- `kws.any (· in text)`. -/
def containsKw (text : String) (kws : List String) : Bool :=
  kws.any (fun k => containsSub k.data text.data)

/-- The five completion signals of one poll iteration, checked in source
order; `some k` is the first (highest-priority) signal that fires. -/
def signalIndex (original : String) (o : PageObs) : Option ℕ :=
  if o.url ≠ original then some 1
  else if containsKw (lowerS o.url) urlKeywords then some 2
  else if o.successIndicators then some 3
  else if containsKw (lowerS o.bodyText) textKeywords then some 4
  else if containsKw (lowerS o.title) titleKeywords then some 5
  else none

/-- Signal number `k` of one poll iteration, in isolation. -/
def sigHolds (original : String) (o : PageObs) (k : ℕ) : Bool :=
  if k = 1 then o.url ≠ original
  else if k = 2 then containsKw (lowerS o.url) urlKeywords
  else if k = 3 then o.successIndicators
  else if k = 4 then containsKw (lowerS o.bodyText) textKeywords
  else if k = 5 then containsKw (lowerS o.title) titleKeywords
  else false

/-- Default observation used for positional indexing in statements. -/
def dummyObs : PageObs := ⟨"", false, "", ""⟩

/-- The polling loop (lines 541-613) followed by the post-timeout location
check (lines 615-621); `n` counts completed iterations. -/
def wfcGo (original finalUrl : String) : List PageObs → ℕ → Bool × ℕ
  | [], n => (decide (finalUrl ≠ original), n)
  | o :: rest, n =>
    if (signalIndex original o).isSome then (true, n + 1)
    else wfcGo original finalUrl rest (n + 1)

/-- `wait_for_completion(page, original_url)` (lines 523-624): the
pre-loop fast check (lines 533-539), then the polling loop over the
observations that fit inside the timeout window, then the final check. -/
def wait_for_completion (original preUrl : String) (obs : List PageObs)
    (finalUrl : String) : Bool × ℕ :=
  if preUrl ≠ original then (true, 0) else wfcGo original finalUrl obs 0

/-! ### `run` and the circuit breaker (lines 627-690, 753-767)

The worker system is modelled as explicit shared state driven by a trace of
per-worker session outcomes.  The semantics of the breaker action is the
CPython semantics of the source: `quit()` raises `SystemExit`, and a
`SystemExit` raised inside a `threading.Thread` is swallowed by
`threading.excepthook`, ending only that thread — so the tripping worker is
marked dead while the shared state and all other workers are untouched. -/

/-- `fail_threshold = target_num / 4 + 1` (line 753); Python `/` is exact
(float) division, modelled over `ℚ`. -/
def fail_threshold (target : ℕ) : ℚ := (target : ℚ) / 4 + 1

/-- The process-wide shared state: the two counters and, per worker, whether
its thread is still running. -/
structure SysState where
  curNum : ℕ
  curFail : ℕ
  alive : List Bool
deriving DecidableEq

/-- Worker `w` may start a new session: its thread is alive and the loop
guard `cur_num < target_num` (line 642) holds.  `cur_fail` is NOT consulted
here — the guard never reads it. -/
def canStart (target : ℕ) (s : SysState) (w : ℕ) : Bool :=
  s.alive.getD w false && decide (s.curNum < target)

/-- Outcome of one session: `wait_for_completion` true, `wait_for_completion`
false (warned, not counted), or an uncaught exception. -/
inductive SessionOutcome
  | success
  | softFail
  | error
deriving DecidableEq

/-- One loop iteration of `run` (lines 642-688) by worker `w`: on success
increment `cur_num`; on a soft failure change nothing; on an exception
increment `cur_fail` and, when `cur_fail >= fail_threshold` (line 682),
execute `quit()` — which ends only the observing worker's thread. -/
def stepWorker (target : ℕ) (s : SysState) (w : ℕ) (o : SessionOutcome) : SysState :=
  if canStart target s w then
    match o with
    | SessionOutcome.success => { s with curNum := s.curNum + 1 }
    | SessionOutcome.softFail => s
    | SessionOutcome.error =>
      if fail_threshold target ≤ ((s.curFail + 1 : ℕ) : ℚ) then
        { s with curFail := s.curFail + 1, alive := s.alive.set w false }
      else { s with curFail := s.curFail + 1 }
  else s

/-- Run a whole trace of scheduled (worker, outcome) session events. -/
def runTrace (target : ℕ) (init : SysState) : List (ℕ × SessionOutcome) → SysState
  | [] => init
  | (w, o) :: rest => runTrace target (stepWorker target init w o) rest

/-- The initial state for `n` worker threads (lines 754-764). -/
def initState (n : ℕ) : SysState :=
  { curNum := 0, curFail := 0, alive := List.replicate n true }

/-! ### Lock discipline of the `run` loop (for the mutex claim)

One loop iteration of `run` is abstracted to its sequence of atomic events;
only the position of the counter increments relative to `lock.acquire()` /
`lock.release()` matters. -/

inductive RunEv
  | openSession
  | navigate
  | fillSurvey
  | detectCompletion
  | incCompleted
  | logProgress
  | acquireLock
  | incFailed
  | releaseLock
  | budgetCheck
  | closeSession
deriving DecidableEq

/-- The event sequence of one successful iteration (lines 658-673): note
`cur_num += 1` (line 664) is executed directly, with no lock around it. -/
def runIterSuccess : List RunEv :=
  [RunEv.openSession, RunEv.navigate, RunEv.fillSurvey, RunEv.detectCompletion,
   RunEv.incCompleted, RunEv.logProgress, RunEv.closeSession]

/-- The event sequence of one iteration whose session raised (lines 674-688):
`lock.acquire(); cur_fail += 1; lock.release()` then the budget check. -/
def runIterFailure : List RunEv :=
  [RunEv.openSession, RunEv.navigate, RunEv.fillSurvey, RunEv.detectCompletion,
   RunEv.acquireLock, RunEv.incFailed, RunEv.releaseLock, RunEv.budgetCheck,
   RunEv.closeSession]

/-- Whether the mutex is held when the event at index `i` executes. -/
def heldAt (evs : List RunEv) (i : ℕ) : Bool :=
  (evs.take i).count RunEv.acquireLock > (evs.take i).count RunEv.releaseLock

/-- Whether an event is a shared-counter increment. -/
def isCounterInc (e : RunEv) : Bool :=
  e = RunEv.incCompleted || e = RunEv.incFailed

/-- The claim's property of an event sequence: every shared-counter increment
executes while the mutex is held. -/
def allIncsLocked (evs : List RunEv) : Bool :=
  (List.range evs.length).all
    (fun i => !(isCounterInc (evs.getD i RunEv.closeSession)) || heldAt evs i)

/-- Run automaton for blank-line-collapsed strings: `goodAux k s` checks that
no maximal whitespace run of `s` holds two newlines, where `k ∈ {0, 1}` counts
the newlines already seen in the run currently being scanned. -/
def goodAux : ℕ → List Char → Bool
  | _, [] => true
  | k, c :: cs =>
    if c = '\n' then decide (k = 0) && goodAux 1 cs
    else if isPySpace c then goodAux k cs
    else goodAux 0 cs

/-- `s` has no whitespace run with two or more newlines, i.e. `s` is a fixed
point of the blank-line collapse. -/
def goodB (s : List Char) : Bool := goodAux 0 s

/- ### Lemmas about substrings -/

theorem startsL_append_of {pat u : List Char} (v : List Char)
    (h : startsL pat u = true) : startsL pat (u ++ v) = true := by
  induction pat generalizing u with
  | nil => simp [startsL]
  | cons p ps ih =>
    cases u with
    | nil => simp [startsL] at h
    | cons c cs =>
      simp only [startsL, Bool.and_eq_true] at h
      simpa [startsL, h.1] using ih h.2

theorem containsSub_nil (s : List Char) : containsSub [] s = true := by
  cases s <;> simp [containsSub, startsL]

theorem containsSub_of_startsL {pat s : List Char} (h : startsL pat s = true) :
    containsSub pat s = true := by
  cases s with
  | nil =>
    cases pat with
    | nil => simp [containsSub, startsL]
    | cons p ps => simp [startsL] at h
  | cons c cs => simp [containsSub, h]

theorem containsSub_cons_of {pat : List Char} (c : Char) {cs : List Char}
    (h : containsSub pat cs = true) : containsSub pat (c :: cs) = true := by
  simp [containsSub, h]

theorem containsSub_append_left {pat u : List Char} (v : List Char)
    (h : containsSub pat u = true) : containsSub pat (u ++ v) = true := by
  induction u with
  | nil =>
    have : pat = [] := by
      cases pat with
      | nil => rfl
      | cons p ps => simp [containsSub, startsL] at h
    subst this; exact containsSub_nil v
  | cons c cs ih =>
    simp only [containsSub, Bool.or_eq_true] at h
    rcases h with h | h
    · exact containsSub_of_startsL (by simpa using startsL_append_of v h)
    · exact containsSub_cons_of c (ih h)

theorem containsSub_append_right (u : List Char) {pat v : List Char}
    (h : containsSub pat v = true) : containsSub pat (u ++ v) = true := by
  induction u with
  | nil => simpa using h
  | cons c cs ih => exact containsSub_cons_of c ih

theorem containsSub_of_pre {pat u s : List Char} (hp : ∃ t, u ++ t = s)
    (h : containsSub pat u = true) : containsSub pat s = true := by
  obtain ⟨t, rfl⟩ := hp
  exact containsSub_append_left t h

theorem containsSub_of_suf {pat t s : List Char} (hs : ∃ u, u ++ t = s)
    (h : containsSub pat t = true) : containsSub pat s = true := by
  obtain ⟨u, rfl⟩ := hs
  exact containsSub_append_right u h

theorem startsL_false_of_not_contains {pat s : List Char}
    (h : containsSub pat s = false) : startsL pat s = false := by
  by_contra hne
  rw [containsSub_of_startsL (by simpa using Bool.of_not_eq_false hne)] at h
  simp at h

theorem containsSub_tail_false {pat : List Char} {c : Char} {cs : List Char}
    (h : containsSub pat (c :: cs) = false) : containsSub pat cs = false := by
  by_contra hne
  rw [containsSub_cons_of c (by simpa using Bool.of_not_eq_false hne)] at h
  simp at h

theorem containsSub_dropWhile_false {pat s : List Char} {p : Char → Bool}
    (h : containsSub pat s = false) : containsSub pat (s.dropWhile p) = false := by
  induction s with
  | nil => simpa using h
  | cons c cs ih =>
    rw [List.dropWhile_cons]
    by_cases hc : p c = true
    · simp only [hc, if_true]
      exact ih (containsSub_tail_false h)
    · simp only [Bool.not_eq_true] at hc
      simpa [hc] using h

theorem containsSub_drop_false {pat s : List Char} (k : ℕ)
    (h : containsSub pat s = false) : containsSub pat (s.drop k) = false := by
  induction k generalizing s with
  | zero => simpa using h
  | succ k ih =>
    cases s with
    | nil => simpa using h
    | cons c cs => simpa using ih (containsSub_tail_false h)

/- ### Identity lemmas for the marker-removal passes -/

theorem splitAfterClose_eq_none {s : List Char}
    (h : containsSub thinkClose s = false) : splitAfterClose s = none := by
  induction s with
  | nil => rfl
  | cons c cs ih =>
    rw [splitAfterClose, if_neg (by simp [startsL_false_of_not_contains h])]
    exact ih (containsSub_tail_false h)

theorem removePairedF_id {s : List Char}
    (h : containsSub thinkClose s = false) : ∀ f, removePairedF f s = s := by
  induction s with
  | nil => intro f; cases f <;> rfl
  | cons c cs ih =>
    intro f
    cases f with
    | zero => rfl
    | succ f =>
      rw [removePairedF]
      by_cases ho : startsL thinkOpen (c :: cs) = true
      · rw [if_pos ho, splitAfterClose_eq_none (containsSub_drop_false 7 h)]
      · rw [if_neg ho, ih (containsSub_tail_false h) f]

theorem removePaired_id {s : List Char}
    (h : containsSub thinkClose s = false) : removePaired s = s :=
  removePairedF_id h s.length

theorem removeCloseF_id {s : List Char}
    (h : containsSub thinkClose s = false) : ∀ f, removeCloseF f s = s := by
  induction s with
  | nil => intro f; cases f <;> rfl
  | cons c cs ih =>
    intro f
    cases f with
    | zero => rfl
    | succ f =>
      rw [removeCloseF, if_neg (by simp [startsL_false_of_not_contains h]),
        ih (containsSub_tail_false h) f]

theorem removeClose_id {s : List Char}
    (h : containsSub thinkClose s = false) : removeClose s = s :=
  removeCloseF_id h s.length

theorem dropFromOpen_id {s : List Char}
    (h : containsSub thinkOpen s = false) : dropFromOpen s = s := by
  induction s with
  | nil => rfl
  | cons c cs ih =>
    rw [dropFromOpen, if_neg (by simp [startsL_false_of_not_contains h]),
      ih (containsSub_tail_false h)]

theorem dropFromOpen_pre (s : List Char) : ∃ t, dropFromOpen s ++ t = s := by
  induction s with
  | nil => exact ⟨[], rfl⟩
  | cons c cs ih =>
    rw [dropFromOpen]
    by_cases ho : startsL thinkOpen (c :: cs) = true
    · exact ⟨c :: cs, by rw [if_pos ho]; rfl⟩
    · obtain ⟨t, ht⟩ := ih
      exact ⟨t, by rw [if_neg ho]; simpa using ht⟩

theorem dropFromOpen_no_open (s : List Char) :
    containsSub thinkOpen (dropFromOpen s) = false := by
  induction s with
  | nil => rfl
  | cons c cs ih =>
    rw [dropFromOpen]
    by_cases ho : startsL thinkOpen (c :: cs) = true
    · rw [if_pos ho]; rfl
    · rw [if_neg ho]
      rw [containsSub]
      refine Bool.or_eq_false_iff.mpr ⟨?_, ih⟩
      by_contra hne
      obtain ⟨t, ht⟩ := dropFromOpen_pre cs
      have : startsL thinkOpen ((c :: dropFromOpen cs) ++ t) = true :=
        startsL_append_of t (by simpa using Bool.of_not_eq_false hne)
      rw [List.cons_append, ht] at this
      exact ho this

theorem dropFromOpen_no_close {s : List Char}
    (h : containsSub thinkClose s = false) :
    containsSub thinkClose (dropFromOpen s) = false := by
  by_contra hne
  rw [containsSub_of_pre (dropFromOpen_pre s)
    (by simpa using Bool.of_not_eq_false hne)] at h
  simp at h

/- ### Lemmas about `pyStrip` -/

theorem stripRightL_pre (s : List Char) : ∃ t, stripRightL s ++ t = s := by
  induction s with
  | nil => exact ⟨[], rfl⟩
  | cons c cs ih =>
    rw [stripRightL]
    cases hr : stripRightL cs with
    | nil =>
      by_cases hc : isPySpace c = true
      · exact ⟨c :: cs, by simp [hc]⟩
      · simp only [Bool.not_eq_true] at hc
        exact ⟨cs, by simp [hc]⟩
    | cons d ds =>
      obtain ⟨t, ht⟩ := ih
      rw [hr] at ht
      exact ⟨t, by simpa using ht⟩

theorem dropWhile_suf (p : Char → Bool) (s : List Char) :
    ∃ u, u ++ s.dropWhile p = s := by
  induction s with
  | nil => exact ⟨[], rfl⟩
  | cons c cs ih =>
    rw [List.dropWhile_cons]
    by_cases hc : p c = true
    · obtain ⟨u, hu⟩ := ih
      exact ⟨c :: u, by simp [hc, hu]⟩
    · simp only [Bool.not_eq_true] at hc
      exact ⟨[], by simp [hc]⟩

theorem pyStrip_sub {pat s : List Char} (h : containsSub pat s = false) :
    containsSub pat (pyStrip s) = false := by
  by_contra hne
  have h1 : containsSub pat (s.dropWhile isPySpace) = true :=
    containsSub_of_pre (stripRightL_pre _) (by simpa using Bool.of_not_eq_false hne)
  rw [containsSub_of_suf (dropWhile_suf isPySpace s) h1] at h
  simp at h

theorem stripRightL_cons_of_ne {cs : List Char} {d : Char} {ds : List Char}
    (hr : stripRightL cs = d :: ds) (c : Char) :
    stripRightL (c :: cs) = c :: d :: ds := by
  simp only [stripRightL, hr]

theorem stripRightL_idem (s : List Char) : stripRightL (stripRightL s) = stripRightL s := by
  induction s with
  | nil => rfl
  | cons c cs ih =>
    cases hr : stripRightL cs with
    | nil =>
      by_cases hc : isPySpace c = true
      · simp [stripRightL, hr, hc]
      · simp only [Bool.not_eq_true] at hc
        simp [stripRightL, hr, hc]
    | cons d ds =>
      rw [hr] at ih
      rw [stripRightL_cons_of_ne hr c, stripRightL_cons_of_ne ih c]

theorem dropWhile_head_not (p : Char → Bool) (s : List Char) :
    s.dropWhile p = [] ∨ ∃ c cs, s.dropWhile p = c :: cs ∧ p c = false := by
  induction s with
  | nil => exact Or.inl rfl
  | cons c cs ih =>
    rw [List.dropWhile_cons]
    by_cases hc : p c = true
    · simpa [hc] using ih
    · simp only [Bool.not_eq_true] at hc
      exact Or.inr ⟨c, cs, by simp [hc], hc⟩

theorem pyStrip_idem (s : List Char) : pyStrip (pyStrip s) = pyStrip s := by
  unfold pyStrip
  rcases dropWhile_head_not isPySpace s with h | ⟨c, cs, h, hc⟩
  · rw [h]; rfl
  · rw [h]
    have key : (stripRightL (c :: cs)).dropWhile isPySpace = stripRightL (c :: cs) := by
      cases hr : stripRightL (c :: cs) with
      | nil => rfl
      | cons d ds =>
        have hd : d = c := by
          obtain ⟨t, ht⟩ := stripRightL_pre (c :: cs)
          rw [hr] at ht
          simp only [List.cons_append] at ht
          injection ht with hd _
        rw [List.dropWhile_cons, hd, hc]
        simp
    rw [key, stripRightL_idem]

/- ### Lemmas about newline counts and the collapse pass -/

theorem nlCount_nil : nlCount [] = 0 := rfl

theorem nlCount_cons (c : Char) (s : List Char) :
    nlCount (c :: s) = (if c = '\n' then 1 else 0) + nlCount s := by
  by_cases hc : c = '\n' <;> simp [nlCount, List.countP_cons, hc] <;> omega

theorem nlCount_append (u v : List Char) :
    nlCount (u ++ v) = nlCount u + nlCount v := by
  simp [nlCount, List.countP_append]

theorem nlCount_beforeFirstNl (s : List Char) : nlCount (beforeFirstNl s) = 0 := by
  induction s with
  | nil => rfl
  | cons c cs ih =>
    rw [beforeFirstNl, List.takeWhile_cons]
    by_cases hc : c = '\n'
    · simp [hc, nlCount]
    · simpa [hc, nlCount_cons] using ih

theorem nlCount_afterLastNl (s : List Char) : nlCount (afterLastNl s) = 0 := by
  induction s with
  | nil => rfl
  | cons c cs ih =>
    rw [afterLastNl]
    by_cases hc : c = '\n' ∧ nlCount cs = 0
    · rw [if_pos hc]; exact hc.2
    · rw [if_neg hc]; exact ih

theorem allWs_takeWhile (p : Char → Bool) (s : List Char) :
    ((s.takeWhile isPySpace).all isPySpace) = true := by
  induction s with
  | nil => rfl
  | cons c cs ih =>
    rw [List.takeWhile_cons]
    by_cases hc : isPySpace c = true
    · simpa [hc] using ih
    · simp [hc]

theorem allWs_afterLastNl {s : List Char} (h : s.all isPySpace = true) :
    (afterLastNl s).all isPySpace = true := by
  induction s with
  | nil => rfl
  | cons c cs ih =>
    simp only [List.all_cons, Bool.and_eq_true] at h
    rw [afterLastNl]
    by_cases hc : c = '\n' ∧ nlCount cs = 0
    · rw [if_pos hc]; exact h.2
    · rw [if_neg hc]; exact ih h.2

theorem allWs_beforeFirstNl {s : List Char} (h : s.all isPySpace = true) :
    (beforeFirstNl s).all isPySpace = true := by
  induction s with
  | nil => rfl
  | cons c cs ih =>
    simp only [List.all_cons, Bool.and_eq_true] at h
    rw [beforeFirstNl, List.takeWhile_cons]
    by_cases hc : (c != '\n') = true
    · simpa [hc, h.1] using ih h.2
    · simp [hc]

theorem collapseRun_allWs {w : List Char} (h : w.all isPySpace = true) :
    (collapseRun w).all isPySpace = true := by
  rw [collapseRun]
  by_cases h2 : 2 ≤ nlCount w
  · rw [if_pos h2]
    simp only [List.all_append, List.all_cons, Bool.and_eq_true]
    refine ⟨allWs_beforeFirstNl h, by simp [isPySpace], allWs_afterLastNl h⟩
  · rw [if_neg h2]; exact h

theorem collapseRun_nl_le_one (w : List Char) : nlCount (collapseRun w) ≤ 1 := by
  rw [collapseRun]
  by_cases h2 : 2 ≤ nlCount w
  · rw [if_pos h2, nlCount_append, nlCount_beforeFirstNl, nlCount_cons,
      nlCount_afterLastNl]
    simp
  · rw [if_neg h2]; omega

theorem collapseRun_ne_nil {w : List Char} (h : w ≠ []) : collapseRun w ≠ [] := by
  rw [collapseRun]
  by_cases h2 : 2 ≤ nlCount w
  · rw [if_pos h2]; simp
  · rw [if_neg h2]; exact h

/-- `collapseF` maps a list that is empty or has a non-whitespace head to a
list of the same shape. -/
theorem collapseF_shape (f : ℕ) {s : List Char}
    (h : s = [] ∨ ∃ c cs, s = c :: cs ∧ isPySpace c = false) :
    collapseF f s = [] ∨
      ∃ c cs, collapseF f s = c :: cs ∧ isPySpace c = false := by
  rcases h with rfl | ⟨c, cs, rfl, hc⟩
  · cases f <;> exact Or.inl rfl
  · cases f with
    | zero => exact Or.inr ⟨c, cs, rfl, hc⟩
    | succ f =>
      rw [collapseF, if_neg (by simp [hc])]
      exact Or.inr ⟨c, _, rfl, hc⟩

theorem goodAux_nonws_head {c : Char} (hc : isPySpace c = false) (k : ℕ)
    (cs : List Char) : goodAux k (c :: cs) = goodAux 0 cs := by
  have hnl : ¬ c = '\n' := by
    intro h; subst h; simp [isPySpace] at hc
  rw [goodAux, if_neg hnl, if_neg (by simp [hc])]

theorem goodAux_shape_head (k : ℕ) {X : List Char}
    (h : X = [] ∨ ∃ c cs, X = c :: cs ∧ isPySpace c = false) :
    goodAux k X = goodAux 0 X := by
  rcases h with rfl | ⟨c, cs, rfl, hc⟩
  · rfl
  · rw [goodAux_nonws_head hc, goodAux_nonws_head hc]

/-- Prepending one whitespace run that holds at most `1 - k` newlines keeps
the run automaton happy. -/
theorem goodAux_ws_append {u X : List Char} (hu : u.all isPySpace = true)
    (hX : X = [] ∨ ∃ c cs, X = c :: cs ∧ isPySpace c = false)
    (hgood : goodAux 0 X = true) :
    ∀ k, k + nlCount u ≤ 1 → goodAux k (u ++ X) = true := by
  induction u with
  | nil =>
    intro k _
    rw [List.nil_append, goodAux_shape_head k hX]
    exact hgood
  | cons a u' ih =>
    simp only [List.all_cons, Bool.and_eq_true] at hu
    intro k hk
    rw [nlCount_cons] at hk
    by_cases ha : a = '\n'
    · have hif : (if a = '\n' then 1 else 0) = 1 := by simp [ha]
      rw [hif] at hk
      have hk0 : k = 0 := by omega
      have h1 : goodAux 1 (u' ++ X) = true := ih hu.2 1 (by omega)
      subst ha
      rw [List.cons_append, goodAux, if_pos rfl, hk0, h1]
      simp
    · have hif : (if a = '\n' then 1 else 0) = 0 := by simp [ha]
      rw [hif] at hk
      rw [List.cons_append, goodAux, if_neg ha, if_pos hu.1]
      exact ih hu.2 k (by omega)

theorem length_dropWhile_le' (p : Char → Bool) (s : List Char) :
    (s.dropWhile p).length ≤ s.length := by
  induction s with
  | nil => simp
  | cons c cs ih =>
    rw [List.dropWhile_cons]
    by_cases hc : p c = true
    · simp only [hc, if_true]
      exact le_trans ih (by simp)
    · simp [hc]

/-- The output of the blank-line collapse has no whitespace run with two
newlines. -/
theorem goodB_collapseF : ∀ f (s : List Char), s.length ≤ f →
    goodB (collapseF f s) = true := by
  intro f
  induction f with
  | zero =>
    intro s hs
    rw [List.length_eq_zero.mp (Nat.le_zero.mp hs)]
    rfl
  | succ f ih =>
    intro s hs
    cases s with
    | nil => rfl
    | cons c cs =>
      simp only [List.length_cons, Nat.succ_le_succ_iff] at hs
      by_cases hc : isPySpace c = true
      · rw [collapseF, if_pos hc]
        have hr := dropWhile_head_not isPySpace cs
        have hrs : cs.dropWhile isPySpace = [] ∨
            ∃ d ds, cs.dropWhile isPySpace = d :: ds ∧ isPySpace d = false := by
          rcases hr with h | ⟨d, ds, h1, h2⟩
          · exact Or.inl h
          · exact Or.inr ⟨d, ds, h1, h2⟩
        exact goodAux_ws_append
          (collapseRun_allWs (by simpa [hc] using allWs_takeWhile isPySpace cs))
          (collapseF_shape f hrs)
          (ih _ (le_trans (length_dropWhile_le' isPySpace cs) hs))
          0 (by simpa using collapseRun_nl_le_one (c :: cs.takeWhile isPySpace))
      · simp only [Bool.not_eq_true] at hc
        rw [collapseF, if_neg (by simp [hc])]
        unfold goodB
        rw [goodAux_nonws_head hc]
        exact ih cs hs

/-- In a good string, the leading whitespace run holds at most `1 - k`
newlines. -/
theorem goodAux_run_bound : ∀ (s : List Char) (k : ℕ), k ≤ 1 →
    goodAux k s = true → k + nlCount (s.takeWhile isPySpace) ≤ 1 := by
  intro s
  induction s with
  | nil => intro k hk _; simpa using hk
  | cons c cs ih =>
    intro k hk h
    rw [List.takeWhile_cons]
    by_cases hc : isPySpace c = true
    · rw [if_pos hc, nlCount_cons]
      by_cases hnl : c = '\n'
      · rw [goodAux, if_pos hnl] at h
        simp only [Bool.and_eq_true, decide_eq_true_eq] at h
        have h2 := ih 1 (by omega) h.2
        have hif : (if c = '\n' then 1 else 0) = 1 := by simp [hnl]
        rw [hif]
        omega
      · rw [goodAux, if_neg hnl, if_pos hc] at h
        have h2 := ih k hk h
        have hif : (if c = '\n' then 1 else 0) = 0 := by simp [hnl]
        rw [hif]
        omega
    · rw [if_neg hc]
      simpa using hk

theorem goodB_dropWhile : ∀ (s : List Char) (k : ℕ), goodAux k s = true →
    goodB (s.dropWhile isPySpace) = true := by
  intro s
  induction s with
  | nil => intro k _; rfl
  | cons c cs ih =>
    intro k h
    rw [List.dropWhile_cons]
    by_cases hc : isPySpace c = true
    · rw [if_pos hc]
      by_cases hnl : c = '\n'
      · rw [goodAux, if_pos hnl] at h
        simp only [Bool.and_eq_true, decide_eq_true_eq] at h
        exact ih 1 h.2
      · rw [goodAux, if_neg hnl, if_pos hc] at h
        exact ih k h
    · rw [if_neg (by simp [hc])]
      unfold goodB
      simp only [Bool.not_eq_true] at hc
      rw [goodAux_nonws_head hc]
      rw [goodAux_nonws_head hc] at h
      exact h

theorem goodAux_stripRightL : ∀ (s : List Char) (k : ℕ), goodAux k s = true →
    goodAux k (stripRightL s) = true := by
  intro s
  induction s with
  | nil => intro k _; rfl
  | cons c cs ih =>
    intro k h
    cases hr : stripRightL cs with
    | nil =>
      by_cases hc : isPySpace c = true
      · simp [stripRightL, hr, hc, goodAux]
      · simp only [Bool.not_eq_true] at hc
        simp only [stripRightL, hr, hc, Bool.false_eq_true, if_false]
        rw [goodAux_nonws_head hc]
        rfl
    | cons d ds =>
      rw [stripRightL_cons_of_ne hr c]
      by_cases hnl : c = '\n'
      · rw [goodAux, if_pos hnl] at h ⊢
        simp only [Bool.and_eq_true, decide_eq_true_eq] at h ⊢
        refine ⟨h.1, ?_⟩
        have := ih 1 h.2
        rwa [hr] at this
      · by_cases hc : isPySpace c = true
        · rw [goodAux, if_neg hnl, if_pos hc] at h ⊢
          have := ih k h
          rwa [hr] at this
        · simp only [Bool.not_eq_true] at hc
          rw [goodAux_nonws_head hc] at h ⊢
          have := ih 0 h
          rwa [hr] at this

theorem goodB_pyStrip {s : List Char} (h : goodB s = true) :
    goodB (pyStrip s) = true :=
  goodAux_stripRightL _ 0 (goodB_dropWhile s 0 h)

/-- A good string is a fixed point of the blank-line collapse (any fuel). -/
theorem collapseF_id_of_good : ∀ f (s : List Char), goodB s = true →
    collapseF f s = s := by
  intro f
  induction f with
  | zero => intro s _; rfl
  | succ f ih =>
    intro s h
    cases s with
    | nil => rfl
    | cons c cs =>
      by_cases hc : isPySpace c = true
      · rw [collapseF, if_pos hc]
        have hrun : nlCount ((c :: cs).takeWhile isPySpace) ≤ 1 := by
          simpa using goodAux_run_bound (c :: cs) 0 (by omega) h
        rw [List.takeWhile_cons, if_pos hc] at hrun
        have hcr : collapseRun (c :: cs.takeWhile isPySpace) =
            c :: cs.takeWhile isPySpace := by
          rw [collapseRun, if_neg (by omega)]
        rw [hcr, ih (cs.dropWhile isPySpace) ?_]
        · rw [List.cons_append, List.takeWhile_append_dropWhile]
        · have : goodB ((c :: cs).dropWhile isPySpace) = true :=
            goodB_dropWhile (c :: cs) 0 h
          rwa [List.dropWhile_cons, if_pos hc] at this
      · simp only [Bool.not_eq_true] at hc
        rw [collapseF, if_neg (by simp [hc])]
        unfold goodB at h
        rw [goodAux_nonws_head hc] at h
        rw [ih cs h]

/- ### Whitespace-free substrings pass through the collapse -/

theorem exists_ws_head {u : List Char} (hu : u.all isPySpace = true)
    (hne : u ≠ []) : ∃ d du, u = d :: du ∧ isPySpace d = true := by
  cases u with
  | nil => exact absurd rfl hne
  | cons d du =>
    simp only [List.all_cons, Bool.and_eq_true] at hu
    exact ⟨d, du, rfl, hu.1⟩

theorem startsL_wsfree_ws_append {pat u v : List Char}
    (hpat : pat.all (fun c => !isPySpace c) = true)
    (hu : u.all isPySpace = true) (hne : u ≠ [])
    (h : startsL pat (u ++ v) = true) : pat = [] := by
  obtain ⟨d, du, rfl, hd⟩ := exists_ws_head hu hne
  cases pat with
  | nil => rfl
  | cons p ps =>
    simp only [List.cons_append, startsL, Bool.and_eq_true, decide_eq_true_eq] at h
    simp only [List.all_cons, Bool.and_eq_true] at hpat
    rw [h.1] at hpat
    simp [hd] at hpat

theorem containsSub_wsfree_ws_append {pat u v : List Char}
    (hpat : pat.all (fun c => !isPySpace c) = true)
    (hu : u.all isPySpace = true)
    (h : containsSub pat (u ++ v) = true) : containsSub pat v = true := by
  induction u with
  | nil => simpa using h
  | cons a u' ih =>
    simp only [List.all_cons, Bool.and_eq_true] at hu
    simp only [List.cons_append, containsSub, Bool.or_eq_true] at h
    rcases h with h | h
    · have hall : (a :: u').all isPySpace = true := by simp [hu.1, hu.2]
      have hpe : pat = [] :=
        startsL_wsfree_ws_append hpat hall (by simp) (by simpa using h)
      subst hpe
      exact containsSub_nil v
    · exact ih hu.2 h

theorem startsL_collapseF :
    ∀ f (pat s : List Char), pat.all (fun c => !isPySpace c) = true →
      startsL pat (collapseF f s) = true → startsL pat s = true := by
  intro f
  induction f with
  | zero => intro pat s _ h; exact h
  | succ f ih =>
    intro pat s hpat h
    cases s with
    | nil => exact h
    | cons c cs =>
      by_cases hc : isPySpace c = true
      · rw [collapseF, if_pos hc] at h
        have hpe : pat = [] :=
          startsL_wsfree_ws_append hpat
            (collapseRun_allWs (by simpa [hc] using allWs_takeWhile isPySpace cs))
            (collapseRun_ne_nil (by simp)) h
        subst hpe
        rfl
      · simp only [Bool.not_eq_true] at hc
        rw [collapseF, if_neg (by simp [hc])] at h
        cases pat with
        | nil => rfl
        | cons p ps =>
          simp only [startsL, Bool.and_eq_true] at h ⊢
          simp only [List.all_cons, Bool.and_eq_true] at hpat
          exact ⟨h.1, ih ps cs hpat.2 h.2⟩

theorem containsSub_collapseF :
    ∀ f (pat s : List Char), pat.all (fun c => !isPySpace c) = true →
      containsSub pat (collapseF f s) = true → containsSub pat s = true := by
  intro f
  induction f with
  | zero => intro pat s _ h; exact h
  | succ f ih =>
    intro pat s hpat h
    cases s with
    | nil => exact h
    | cons c cs =>
      by_cases hc : isPySpace c = true
      · rw [collapseF, if_pos hc] at h
        have h1 : containsSub pat (collapseF f (cs.dropWhile isPySpace)) = true :=
          containsSub_wsfree_ws_append hpat
            (collapseRun_allWs (by simpa [hc] using allWs_takeWhile isPySpace cs)) h
        exact containsSub_cons_of c
          (containsSub_of_suf (dropWhile_suf isPySpace cs)
            (ih pat _ hpat h1))
      · simp only [Bool.not_eq_true] at hc
        rw [collapseF, if_neg (by simp [hc])] at h
        simp only [containsSub, Bool.or_eq_true] at h ⊢
        rcases h with h | h
        · have : startsL pat (collapseF (f + 1) (c :: cs)) = true := by
            rw [collapseF, if_neg (by simp [hc])]
            exact h
          have := startsL_collapseF (f + 1) pat (c :: cs) hpat this
          exact Or.inl this
        · exact Or.inr (ih pat cs hpat h)

theorem containsSub_collapseWs_false {pat s : List Char}
    (hpat : pat.all (fun c => !isPySpace c) = true)
    (h : containsSub pat s = false) : containsSub pat (collapseWs s) = false := by
  by_contra hne
  rw [containsSub_collapseF s.length pat s hpat
    (by simpa using Bool.of_not_eq_false hne)] at h
  simp at h

theorem thinkOpen_wsfree : thinkOpen.all (fun c => !isPySpace c) = true := by decide

theorem thinkClose_wsfree : thinkClose.all (fun c => !isPySpace c) = true := by decide

/-- A marker-free, stripped, collapse-fixed string is a fixed point of
`clean_list`. -/
theorem clean_list_fixed {r : List Char}
    (hro : containsSub thinkOpen r = false)
    (hrc : containsSub thinkClose r = false)
    (hrstrip : pyStrip r = r)
    (hrgood : goodB r = true) : clean_list r = r := by
  have hg : startsL thinkOpen (pyStrip r) = false := by
    rw [hrstrip]; exact startsL_false_of_not_contains hro
  unfold clean_list
  rw [if_neg (by simp [hg])]
  rw [removePaired_id hrc, dropFromOpen_id hro, removeClose_id hrc, hrstrip]
  unfold collapseWs
  rw [collapseF_id_of_good _ _ hrgood]
  exact hrstrip

/-- On inputs without the end marker, one `clean_list` pass already reaches a
fixed point. -/
theorem clean_list_idem_of_no_close {s : List Char}
    (h : containsSub thinkClose s = false) :
    clean_list (clean_list s) = clean_list s := by
  by_cases hg : startsL thinkOpen (pyStrip s) = true
  · have h1 : clean_list s = [] := by
      unfold clean_list
      rw [if_pos (by simp [hg, h])]
    rw [h1]
    rfl
  · simp only [Bool.not_eq_true] at hg
    have hDo := dropFromOpen_no_open s
    have hDc := dropFromOpen_no_close h
    have hs1 : clean_list s =
        pyStrip (collapseWs (pyStrip (removeClose (dropFromOpen (removePaired s))))) := by
      unfold clean_list
      rw [if_neg (by simp [hg])]
    rw [removePaired_id h, removeClose_id hDc] at hs1
    rw [hs1]
    refine clean_list_fixed ?_ ?_ (pyStrip_idem _) ?_
    · exact pyStrip_sub (containsSub_collapseWs_false thinkOpen_wsfree (pyStrip_sub hDo))
    · exact pyStrip_sub (containsSub_collapseWs_false thinkClose_wsfree (pyStrip_sub hDc))
    · refine goodB_pyStrip ?_
      unfold collapseWs
      exact goodB_collapseF _ _ le_rfl


/- ### Reduction and helper lemmas for the handlers -/

theorem foldl_if_append (n : ℕ) (cs : List ℤ) : ∀ acc : List ℤ,
    cs.foldl (fun acc c => if 1 ≤ c ∧ c ≤ (n : ℤ) then acc ++ [c] else acc) acc =
      acc ++ cs.filter (fun c => decide (1 ≤ c ∧ c ≤ (n : ℤ))) := by
  induction cs with
  | nil => intro acc; simp
  | cons c cs ih =>
    intro acc
    rw [List.foldl_cons, List.filter_cons]
    by_cases hc : 1 ≤ c ∧ c ≤ (n : ℤ)
    · rw [if_pos hc, ih]
      simp [hc]
    · rw [if_neg hc, ih]
      simp [hc]

theorem multiple_eq_some {answer : String} (n : ℕ) {cs : List ℤ}
    (h : (splitComma answer.data).mapM (fun x => pyIntL (pyStrip x)) = some cs) :
    multiple answer n =
      cs.foldl (fun acc c => if 1 ≤ c ∧ c ≤ (n : ℤ) then acc ++ [c] else acc) [] := by
  unfold multiple
  rw [h]

theorem multiple_eq_none {answer : String} (n : ℕ)
    (h : (splitComma answer.data).mapM (fun x => pyIntL (pyStrip x)) = none) :
    multiple answer n = [1] := by
  unfold multiple
  rw [h]

theorem matrix_eq_some {answer : String} (n : ℕ) {c : ℤ}
    (h : pyIntL answer.data = some c) :
    matrix answer n = if 2 ≤ c ∧ c ≤ (n : ℤ) then c else 2 := by
  unfold matrix
  rw [h]

theorem matrix_eq_none {answer : String} (n : ℕ)
    (h : pyIntL answer.data = none) : matrix answer n = 2 := by
  unfold matrix
  rw [h]

theorem buildPrompt_unknown {qtype : String} (h : qtype ∉ knownKinds)
    (question options persona : String) :
    buildPrompt question options qtype persona = none := by
  simp only [knownKinds, List.mem_cons, List.not_mem_nil, or_false] at h
  push_neg at h
  obtain ⟨h1, h2, h3, h4, h5, h6, h7⟩ := h
  unfold buildPrompt
  rw [if_neg h1, if_neg h2, if_neg h3, if_neg h4, if_neg h5, if_neg h6, if_neg h7]

/- ### Retry-loop lemmas for `ask_ai_for_answer` -/

theorem askAiGo_selection (qtype : String)
    (hfb : fallbackAnswer qtype = "1")
    (hct : selectionKinds.contains qtype = true)
    (question options persona : String) :
    ∀ (attempts : List (String → Except Unit String)) (calls : ℕ),
      (askAiGo question options qtype persona calls attempts).1 = "1" ∨
      ((askAiGo question options qtype persona calls attempts).1.data.any
          Char.isDigit = true ∧
        ∃ llm ∈ attempts, ∃ content prompt,
          buildPrompt question options qtype persona = some prompt ∧
          llm prompt = Except.ok content ∧
          (askAiGo question options qtype persona calls attempts).1 =
            String.mk (clean_list (pyStrip content.data))) := by
  intro attempts
  induction attempts with
  | nil =>
    intro calls
    left
    unfold askAiGo
    rw [hfb]
  | cons llm rest ih =>
    intro calls
    cases hbp : buildPrompt question options qtype persona with
    | none =>
      left
      unfold askAiGo
      rw [hbp]
    | some prompt =>
      cases hl : llm prompt with
      | error e =>
        have hred : askAiGo question options qtype persona calls (llm :: rest) =
            askAiGo question options qtype persona (calls + 1) rest := by
          simp only [askAiGo, hbp, hl]
        rw [hred]
        rcases ih (calls + 1) with h | ⟨hd, llm', hmem, content, prompt', h1, h2, h3⟩
        · exact Or.inl h
        · exact Or.inr ⟨hd, llm', List.mem_cons_of_mem _ hmem, content, prompt',
            hbp.symm.trans h1, h2, h3⟩
      | ok content =>
        by_cases he : ((clean_list (pyStrip content.data)).isEmpty ||
            (pyStrip (clean_list (pyStrip content.data))).isEmpty) = true
        · have hred : askAiGo question options qtype persona calls (llm :: rest) =
              askAiGo question options qtype persona (calls + 1) rest := by
            simp only [askAiGo, hbp, hl]
            rw [if_pos he]
          rw [hred]
          rcases ih (calls + 1) with h | ⟨hd, llm', hmem, content', prompt', h1, h2, h3⟩
          · exact Or.inl h
          · exact Or.inr ⟨hd, llm', List.mem_cons_of_mem _ hmem, content', prompt',
              hbp.symm.trans h1, h2, h3⟩
        · by_cases hdg : (selectionKinds.contains qtype &&
              !((clean_list (pyStrip content.data)).any Char.isDigit)) = true
          · have hred : askAiGo question options qtype persona calls (llm :: rest) =
                askAiGo question options qtype persona (calls + 1) rest := by
              simp only [askAiGo, hbp, hl]
              rw [if_neg he, if_pos hdg]
            rw [hred]
            rcases ih (calls + 1) with h | ⟨hd, llm', hmem, content', prompt', h1, h2, h3⟩
            · exact Or.inl h
            · exact Or.inr ⟨hd, llm', List.mem_cons_of_mem _ hmem, content', prompt',
                hbp.symm.trans h1, h2, h3⟩
          · have hred : askAiGo question options qtype persona calls (llm :: rest) =
                (String.mk (clean_list (pyStrip content.data)), calls + 1) := by
              simp only [askAiGo, hbp, hl]
              rw [if_neg he, if_neg hdg]
            rw [hred]
            right
            simp only [hct, Bool.true_and, Bool.not_eq_true', Bool.not_eq_false] at hdg
            exact ⟨hdg, llm, List.mem_cons_self _ _, content, prompt, rfl, hl, rfl⟩

theorem buildPrompt_text (question options persona : String) :
    buildPrompt question options "text" persona =
      some ("根据以下人设回答填空题。人设：" ++ persona ++ "\n\n问题：" ++ question ++
        "\n请提供一个简短、真实的答案，不要解释。字数不超过100字，不要使用emoji表情") := by
  unfold buildPrompt
  rw [if_neg (by decide), if_neg (by decide), if_pos rfl]

theorem askAiGo_text_exhausted (question options persona : String) :
    ∀ (attempts : List (String → Except Unit String)) (calls : ℕ),
      (∀ llm ∈ attempts, ∀ prompt content,
        buildPrompt question options "text" persona = some prompt →
        llm prompt = Except.ok content → clean_list (pyStrip content.data) = []) →
      askAiGo question options "text" persona calls attempts =
        ("无", calls + attempts.length) := by
  intro attempts
  induction attempts with
  | nil =>
    intro calls _
    unfold askAiGo
    rw [show fallbackAnswer "text" = "无" by decide]
    simp
  | cons llm rest ih =>
    intro calls hrej
    have hbp := buildPrompt_text question options persona
    cases hl : llm ("根据以下人设回答填空题。人设：" ++ persona ++ "\n\n问题：" ++ question ++
        "\n请提供一个简短、真实的答案，不要解释。字数不超过100字，不要使用emoji表情") with
    | error e =>
      have hred : askAiGo question options "text" persona calls (llm :: rest) =
          askAiGo question options "text" persona (calls + 1) rest := by
        simp only [askAiGo, hbp, hl]
      rw [hred, ih (calls + 1) (fun l hm => hrej l (List.mem_cons_of_mem _ hm))]
      simp only [List.length_cons, Prod.mk.injEq, true_and]
      omega
    | ok content =>
      have h0 : clean_list (pyStrip content.data) = [] :=
        hrej llm (List.mem_cons_self _ _) _ content hbp hl
      have hred : askAiGo question options "text" persona calls (llm :: rest) =
          askAiGo question options "text" persona (calls + 1) rest := by
        simp only [askAiGo, hbp, hl]
        rw [if_pos (by simp [h0])]
      rw [hred, ih (calls + 1) (fun l hm => hrej l (List.mem_cons_of_mem _ hm))]
      simp only [List.length_cons, Prod.mk.injEq, true_and]
      omega

/- ### Polling-loop lemmas for `wait_for_completion` -/

theorem wfcGo_first_signal (original finalUrl : String) :
    ∀ (obs : List PageObs) (n i : ℕ), i < obs.length →
      (∀ j, j < i → signalIndex original (obs.getD j dummyObs) = none) →
      (signalIndex original (obs.getD i dummyObs)).isSome = true →
      wfcGo original finalUrl obs n = (true, n + i + 1) := by
  intro obs
  induction obs with
  | nil => intro n i hi; simp at hi
  | cons o rest ih =>
    intro n i hi hnone hsome
    cases i with
    | zero =>
      unfold wfcGo
      rw [if_pos (by simpa using hsome)]
    | succ i =>
      have h0 : signalIndex original o = none := by
        simpa using hnone 0 (Nat.succ_pos i)
      unfold wfcGo
      rw [if_neg (by simp [h0])]
      rw [ih (n + 1) i (by simpa using hi)
        (fun j hj => by simpa using hnone (j + 1) (by omega))
        (by simpa using hsome)]
      simp only [Prod.mk.injEq, true_and]
      omega

theorem wfcGo_false (original finalUrl : String) :
    ∀ (obs : List PageObs) (n : ℕ),
      (wfcGo original finalUrl obs n).1 = false →
      (∀ o ∈ obs, signalIndex original o = none) ∧ finalUrl = original := by
  intro obs
  induction obs with
  | nil =>
    intro n h
    unfold wfcGo at h
    simp only [decide_eq_false_iff_not, ne_eq, not_not] at h
    exact ⟨by simp, h⟩
  | cons o rest ih =>
    intro n h
    unfold wfcGo at h
    by_cases hs : (signalIndex original o).isSome = true
    · rw [if_pos hs] at h
      simp at h
    · rw [if_neg hs] at h
      obtain ⟨h1, h2⟩ := ih (n + 1) h
      refine ⟨?_, h2⟩
      intro o' ho'
      rcases List.mem_cons.mp ho' with rfl | ho'
      · simpa using Option.not_isSome_iff_eq_none.mp (by simpa using hs)
      · exact h1 o' ho'

/- ### Claim theorems -/

/-- C3 (counterexample): `clean_response` is NOT idempotent.  On the input
`"<thi</think>nk>after"` the stray-end-marker pass splices a fresh `<think>`
out of `"<thi"` and `"nk>"`, so one pass returns `"<think>after"`, while a
second pass hits the unclosed-leading-marker guard and returns `""`. -/
theorem clean_response_not_idempotent :
    clean_response (clean_response "<thi</think>nk>after") ≠
      clean_response "<thi</think>nk>after" := by decide

/-- C3 (amended): `sanitize(sanitize(x)) = sanitize(x)` holds for every input
`x` in which the end marker `</think>` does not occur; removing stray end
markers can otherwise splice a new `<think>` into the output and change the
second pass. -/
theorem clean_response_idem_of_no_close (s : String)
    (h : containsSub thinkClose s.data = false) :
    clean_response (clean_response s) = clean_response s := by
  unfold clean_response
  exact congrArg String.mk (clean_list_idem_of_no_close h)

/-- Witness for the amended C3 at the end-marker-free input `"a\n\n<think>b"`. -/
theorem clean_response_idem_witness :
    containsSub thinkClose "a\n\n<think>b".data = false ∧
      clean_response (clean_response "a\n\n<think>b") = clean_response "a\n\n<think>b" :=
  ⟨by decide, clean_response_idem_of_no_close "a\n\n<think>b" (by decide)⟩

/-- C2: `generate_persona` is specified to return the hardcoded default
persona whenever every attempt is rejected.  The code only does so when the
LAST attempt raises; when the last attempt succeeds at the API level but its
sanitized persona is shorter than 20 characters, the `for` loop is exhausted
through the `continue` path and the function falls off its end, returning
Python `None` (`none` here) instead of the documented default string. -/
theorem generate_persona_short_last_attempt_returns_none :
    generate_persona [Except.ok "短"] = none ∧
      generate_persona [Except.error ()] = some default_persona ∧
      generate_persona [Except.error (), Except.ok "短"] = none := by
  refine ⟨by decide, by decide, by decide⟩

/-- C4 (counterexample): it is NOT the case that every shared-counter
increment in the `run` loop happens under the mutex: the claim fails on the
success path, where `cur_num += 1` executes with no lock held. -/
theorem counter_increments_not_all_locked :
    ¬ (allIncsLocked runIterSuccess = true ∧ allIncsLocked runIterFailure = true) := by
  decide

/-- C4 (amended): in the `run` loop, the `failed` increment is performed while
holding the mutex, but the `completed` increment on detector success is
performed without holding it (event index 4 of the success path is the
`cur_num += 1` write, and no acquire precedes it). -/
theorem failed_inc_locked_completed_inc_unlocked :
    allIncsLocked runIterFailure = true ∧
      runIterSuccess.getD 4 RunEv.closeSession = RunEv.incCompleted ∧
      heldAt runIterSuccess 4 = false := by
  decide

/-- C1: the failure budget is `target / 4 + 1` (so 3 for `target = 8`) and
the 3rd counted failure does stop the worker that observed it — but `quit()`
raises `SystemExit` inside that worker's thread only, which `threading`
swallows, and no other worker ever reads `cur_fail` in its loop guard: after
worker 0's third failure trips the budget, worker 1 is still alive and still
allowed to start a new session, so the process does not terminate. -/
theorem circuit_breaker_only_stops_observing_worker :
    fail_threshold 8 = 3 ∧
      (runTrace 8 (initState 2)
        [(0, SessionOutcome.error), (0, SessionOutcome.error),
         (0, SessionOutcome.error)]).curFail = 3 ∧
      canStart 8 (runTrace 8 (initState 2)
        [(0, SessionOutcome.error), (0, SessionOutcome.error),
         (0, SessionOutcome.error)]) 0 = false ∧
      canStart 8 (runTrace 8 (initState 2)
        [(0, SessionOutcome.error), (0, SessionOutcome.error),
         (0, SessionOutcome.error)]) 1 = true := by
  refine ⟨by norm_num [fail_threshold], ?_, ?_, ?_⟩ <;>
    norm_num [runTrace, stepWorker, canStart, initState, fail_threshold, List.getD]

/-- C6: when the AI output parses as a comma-separated list of integers, the
`multiple` handler clicks exactly the listed indices that lie in
`1..numOptions`, in list order; when parsing fails it clicks option 1 and
nothing else.  In particular `"2,4,7"` against 5 options selects 2 and 4,
ignores 7, and never selects 1. -/
theorem multiple_selects_exactly_listed_in_range :
    (∀ (answer : String) (n : ℕ) (cs : List ℤ),
        (splitComma answer.data).mapM (fun x => pyIntL (pyStrip x)) = some cs →
        multiple answer n = cs.filter (fun c => decide (1 ≤ c ∧ c ≤ (n : ℤ)))) ∧
    (∀ (answer : String) (n : ℕ),
        (splitComma answer.data).mapM (fun x => pyIntL (pyStrip x)) = none →
        multiple answer n = [1]) ∧
    multiple "2,4,7" 5 = [2, 4] ∧ (1 : ℤ) ∉ multiple "2,4,7" 5 ∧
    multiple "abc" 5 = [1] := by
  refine ⟨?_, ?_, by decide, by decide, by decide⟩
  · intro answer n cs h
    rw [multiple_eq_some n h]
    simpa using foldl_if_append n cs []
  · intro answer n h
    exact multiple_eq_none n h

/-- Witness for C6 at the documented example input. -/
theorem multiple_selects_witness :
    (splitComma "2,4,7".data).mapM (fun x => pyIntL (pyStrip x)) = some [2, 4, 7] ∧
      multiple "2,4,7" 5 =
        List.filter (fun c => decide (1 ≤ c ∧ c ≤ ((5 : ℕ) : ℤ))) [2, 4, 7] :=
  ⟨by decide,
    multiple_selects_exactly_listed_in_range.1 "2,4,7" 5 [2, 4, 7] (by decide)⟩

/-- C7: the `matrix` handler clicks column `c` exactly when the answer parses
as an integer `c` with `2 ≤ c ≤ colCount`; every other parsed value
(including 1) and every unparsable answer clicks column 2, and column 1 is
never clicked. -/
theorem matrix_clicks_in_range_else_two :
    (∀ (answer : String) (n : ℕ) (c : ℤ),
        pyIntL answer.data = some c →
        (2 ≤ c ∧ c ≤ (n : ℤ) → matrix answer n = c) ∧
        (¬(2 ≤ c ∧ c ≤ (n : ℤ)) → matrix answer n = 2)) ∧
    (∀ (answer : String) (n : ℕ), pyIntL answer.data = none → matrix answer n = 2) ∧
    (∀ (answer : String) (n : ℕ), matrix answer n ≠ 1) ∧
    matrix "1" 4 = 2 := by
  refine ⟨?_, ?_, ?_, by decide⟩
  · intro answer n c h
    rw [matrix_eq_some n h]
    constructor
    · intro hc; rw [if_pos hc]
    · intro hc; rw [if_neg hc]
  · intro answer n h
    exact matrix_eq_none n h
  · intro answer n
    cases h : pyIntL answer.data with
    | none => rw [matrix_eq_none n h]; omega
    | some c =>
      rw [matrix_eq_some n h]
      by_cases hc : 2 ≤ c ∧ c ≤ (n : ℤ)
      · rw [if_pos hc]; omega
      · rw [if_neg hc]; omega

/-- Witness for C7 at the documented out-of-range input `"1"`. -/
theorem matrix_clicks_witness :
    pyIntL "1".data = some 1 ∧
      (2 ≤ (1 : ℤ) ∧ (1 : ℤ) ≤ ((4 : ℕ) : ℤ) → matrix "1" 4 = 1) ∧
      (¬(2 ≤ (1 : ℤ) ∧ (1 : ℤ) ≤ ((4 : ℕ) : ℤ)) → matrix "1" 4 = 2) :=
  ⟨by decide, (matrix_clicks_in_range_else_two.1 "1" 4 1 (by decide)).1,
    (matrix_clicks_in_range_else_two.1 "1" 4 1 (by decide)).2⟩

/-- C10: for every question type outside the seven enumerated kinds,
`ask_ai_for_answer` returns `"1"` with zero LLM requests issued — the `else`
branch returns before the API call, so there are no retries and the persona
and options arguments are never used. -/
theorem ask_ai_unknown_type_returns_one_no_request :
    ∀ qtype : String, qtype ∉ knownKinds →
      ∀ (question options persona : String)
        (attempts : List (String → Except Unit String)),
        ask_ai_for_answer question options qtype persona attempts = ("1", 0) := by
  intro qtype h question options persona attempts
  have h1 : ¬ qtype = "multiple" := fun he => h (by simp [knownKinds, he])
  have h2 : ¬ qtype = "text" := fun he => h (by simp [knownKinds, he])
  have hfb : fallbackAnswer qtype = "1" := by
    unfold fallbackAnswer
    rw [if_neg h1, if_neg h2]
  cases attempts with
  | nil =>
    unfold ask_ai_for_answer askAiGo
    rw [hfb]
  | cons llm rest =>
    unfold ask_ai_for_answer askAiGo
    rw [buildPrompt_unknown h question options persona]

/-- Witness for C10 at the unsupported type `"reorder"`. -/
theorem ask_ai_unknown_type_witness :
    ("reorder" : String) ∉ knownKinds ∧
      ask_ai_for_answer "q" "o" "reorder" "p"
        [fun _ => Except.ok "7"] = ("1", 0) :=
  ⟨by decide,
    ask_ai_unknown_type_returns_one_no_request "reorder" (by decide) "q" "o" "p"
      [fun _ => Except.ok "7"]⟩

theorem numeric_matrix_eq_some {answer : String} (n : ℕ) (rand : ℕ → ℤ)
    {nums : List ℚ}
    (h : ((splitComma answer.data).filter componentKeeps).mapM
        (fun x => pyFloatL (pyStrip x)) = some nums) :
    numeric_matrix answer n rand =
      (nums.map clampQ ++
        (List.range (n - nums.length)).map (fun i => ((rand i : ℤ) : ℚ))).take n := by
  simp only [numeric_matrix, h, List.length_map]

theorem numeric_matrix_eq_none {answer : String} (n : ℕ) (rand : ℕ → ℤ)
    (h : ((splitComma answer.data).filter componentKeeps).mapM
        (fun x => pyFloatL (pyStrip x)) = none) :
    numeric_matrix answer n rand =
      (List.range n).map (fun i => ((rand i : ℤ) : ℚ)) := by
  simp only [numeric_matrix, h]

theorem clampQ_bounds (x : ℚ) : 0 ≤ clampQ x ∧ clampQ x ≤ 10 := by
  unfold clampQ
  exact ⟨le_max_left 0 _, max_le (by norm_num) (min_le_left 10 x)⟩

/-- C8: the `numeric_matrix` handler clamps each parsed value into `[0,10]`,
pads with random values from `[1,8]` until there is one value per input,
truncates extras, and writes the result without re-normalizing the sum to 10:
`"3,3,3"` against 4 inputs yields `[3,3,3,r]` with `r = rand 0 ∈ [1,8]`, whose
sum is `9 + r ≠ 10` whenever `r ≠ 1`. -/
theorem numeric_matrix_clamp_pad_truncate (rand : ℕ → ℤ)
    (hr : ∀ i, 1 ≤ rand i ∧ rand i ≤ 8) :
    (∀ (answer : String) (n : ℕ), (numeric_matrix answer n rand).length = n) ∧
    (∀ (answer : String) (n : ℕ) (nums : List ℚ),
        ((splitComma answer.data).filter componentKeeps).mapM
            (fun x => pyFloatL (pyStrip x)) = some nums →
        numeric_matrix answer n rand =
          (nums.map clampQ).take n ++
            (List.range (n - nums.length)).map (fun i => ((rand i : ℤ) : ℚ))) ∧
    (∀ (answer : String) (n : ℕ), ∀ q ∈ numeric_matrix answer n rand,
        0 ≤ q ∧ q ≤ 10) ∧
    numeric_matrix "3,3,3" 4 rand = [3, 3, 3, ((rand 0 : ℤ) : ℚ)] ∧
    (rand 0 ≠ 1 → (numeric_matrix "3,3,3" 4 rand).sum ≠ 10) := by
  have hcast : ∀ i : ℕ, 0 ≤ ((rand i : ℤ) : ℚ) ∧ ((rand i : ℤ) : ℚ) ≤ 10 := by
    intro i
    obtain ⟨ha, hb⟩ := hr i
    constructor
    · exact_mod_cast le_trans (by norm_num) ha
    · exact_mod_cast le_trans hb (by norm_num)
  have hsome : ∀ (answer : String) (n : ℕ) (nums : List ℚ),
      ((splitComma answer.data).filter componentKeeps).mapM
          (fun x => pyFloatL (pyStrip x)) = some nums →
      numeric_matrix answer n rand =
        (nums.map clampQ).take n ++
          (List.range (n - nums.length)).map (fun i => ((rand i : ℤ) : ℚ)) := by
    intro answer n nums h
    rw [numeric_matrix_eq_some n rand h, List.take_append_eq_append_take,
      List.length_map]
    congr 1
    exact List.take_of_length_le (by simp)
  have hparse : ((splitComma "3,3,3".data).filter componentKeeps).mapM
      (fun x => pyFloatL (pyStrip x)) = some [3, 3, 3] := by
    simp +decide [splitComma, componentKeeps, pyStrip, stripRightL, isPySpace,
      pyFloatL, digitsVal, List.mapM, List.mapM.loop]
  have hex : numeric_matrix "3,3,3" 4 rand = [3, 3, 3, ((rand 0 : ℤ) : ℚ)] := by
    rw [hsome "3,3,3" 4 [3, 3, 3] hparse]
    norm_num [clampQ, List.range_succ]
  refine ⟨?_, hsome, ?_, hex, ?_⟩
  · intro answer n
    cases hp : ((splitComma answer.data).filter componentKeeps).mapM
        (fun x => pyFloatL (pyStrip x)) with
    | none => simp [numeric_matrix_eq_none n rand hp]
    | some nums =>
      rw [numeric_matrix_eq_some n rand hp]
      simp only [List.length_take, List.length_append, List.length_map,
        List.length_range]
      omega
  · intro answer n q hq
    cases hp : ((splitComma answer.data).filter componentKeeps).mapM
        (fun x => pyFloatL (pyStrip x)) with
    | none =>
      rw [numeric_matrix_eq_none n rand hp] at hq
      obtain ⟨i, _, rfl⟩ := List.mem_map.mp hq
      exact hcast i
    | some nums =>
      rw [numeric_matrix_eq_some n rand hp] at hq
      have hq' := List.take_subset n _ hq
      rcases List.mem_append.mp hq' with hq'' | hq''
      · obtain ⟨x, _, rfl⟩ := List.mem_map.mp hq''
        exact clampQ_bounds x
      · obtain ⟨i, _, rfl⟩ := List.mem_map.mp hq''
        exact hcast i
  · intro h5 hc
    rw [hex] at hc
    simp only [List.sum_cons, List.sum_nil] at hc
    have h6 : ((rand 0 : ℤ) : ℚ) = 1 := by linarith
    exact h5 (by exact_mod_cast h6)

/-- Witness for C8 with the constant in-range random source `5`: the 4th
input is padded with 5 and the written sum is 14, not re-normalized to 10. -/
theorem numeric_matrix_witness :
    (∀ i : ℕ, 1 ≤ (fun _ : ℕ => (5 : ℤ)) i ∧ (fun _ : ℕ => (5 : ℤ)) i ≤ 8) ∧
      numeric_matrix "3,3,3" 4 (fun _ => 5) =
        [3, 3, 3, (((5 : ℤ) : ℚ))] ∧
      (numeric_matrix "3,3,3" 4 (fun _ => 5)).sum ≠ 10 :=
  ⟨fun i => ⟨by norm_num, by norm_num⟩,
    (numeric_matrix_clamp_pad_truncate (fun _ => 5)
      (fun i => ⟨by norm_num, by norm_num⟩)).2.2.2.1,
    (numeric_matrix_clamp_pad_truncate (fun _ => 5)
      (fun i => ⟨by norm_num, by norm_num⟩)).2.2.2.2 (by norm_num)⟩

/-- C5: for every selection kind and every sequence of LLM completions or
raised errors, `ask_ai_for_answer` is total and returns either the fallback
`"1"` or the sanitized text of one of the completions, and that text contains
at least one digit; for kind `text`, exhausting all attempts (every attempt
raises or sanitizes to empty) returns the fallback `"无"`. -/
theorem ask_ai_selection_digit_or_fallback :
    (∀ qtype ∈ selectionKinds,
      ∀ (question options persona : String)
        (attempts : List (String → Except Unit String)),
        (ask_ai_for_answer question options qtype persona attempts).1 = "1" ∨
        ((ask_ai_for_answer question options qtype persona attempts).1.data.any
            Char.isDigit = true ∧
          ∃ llm ∈ attempts, ∃ content prompt,
            buildPrompt question options qtype persona = some prompt ∧
            llm prompt = Except.ok content ∧
            (ask_ai_for_answer question options qtype persona attempts).1 =
              String.mk (clean_list (pyStrip content.data)))) ∧
    (∀ (question options persona : String)
        (attempts : List (String → Except Unit String)),
        (∀ llm ∈ attempts, ∀ prompt content,
          buildPrompt question options "text" persona = some prompt →
          llm prompt = Except.ok content →
          clean_list (pyStrip content.data) = []) →
        ask_ai_for_answer question options "text" persona attempts =
          ("无", attempts.length)) := by
  constructor
  · intro qtype hq question options persona attempts
    have hq' : qtype = "single" ∨ qtype = "scale" ∨ qtype = "matrix" ∨
        qtype = "dropdown" := by
      simpa [selectionKinds] using hq
    have hfb : fallbackAnswer qtype = "1" := by
      rcases hq' with rfl | rfl | rfl | rfl <;> decide
    have hct : selectionKinds.contains qtype = true := by
      rcases hq' with rfl | rfl | rfl | rfl <;> decide
    exact askAiGo_selection qtype hfb hct question options persona attempts 0
  · intro question options persona attempts hrej
    have h := askAiGo_text_exhausted question options persona attempts 0 hrej
    simpa using h

/-- Witness for C5: a `single` question whose only completion is `"3"`
returns the sanitized digit answer, and a `text` question with no remaining
attempts returns `"无"`. -/
theorem ask_ai_selection_witness :
    (("single" : String) ∈ selectionKinds ∧
      ((ask_ai_for_answer "q" "o" "single" "p"
          ([fun _ => Except.ok "3"] : List (String → Except Unit String))).1 = "1" ∨
        ((ask_ai_for_answer "q" "o" "single" "p"
            ([fun _ => Except.ok "3"] :
              List (String → Except Unit String))).1.data.any Char.isDigit = true ∧
          ∃ llm ∈ ([fun _ => Except.ok "3"] : List (String → Except Unit String)),
            ∃ content prompt,
            buildPrompt "q" "o" "single" "p" = some prompt ∧
            llm prompt = Except.ok content ∧
            (ask_ai_for_answer "q" "o" "single" "p"
              ([fun _ => Except.ok "3"] : List (String → Except Unit String))).1 =
              String.mk (clean_list (pyStrip content.data))))) ∧
      ask_ai_for_answer "q" "o" "text" "p" [] = ("无", 0) :=
  ⟨⟨by decide,
      ask_ai_selection_digit_or_fallback.1 "single" (by decide) "q" "o" "p"
        ([fun _ => Except.ok "3"] : List (String → Except Unit String))⟩,
    ask_ai_selection_digit_or_fallback.2 "q" "o" "p" []
      (fun llm hm => absurd hm (List.not_mem_nil llm))⟩

/-- C9: `wait_for_completion` returns true on the first poll iteration at
which any of the five signals fires, with the signals checked in the source's
priority order (navigation, location keyword, success element, page-text
phrase, title keyword); it returns false only when no iteration inside the
timeout window matched and the additional post-timeout location check finds
the location unchanged. -/
theorem wait_for_completion_first_signal_spec :
    (∀ (original finalUrl : String) (obs : List PageObs) (i : ℕ),
        i < obs.length →
        (∀ j, j < i → signalIndex original (obs.getD j dummyObs) = none) →
        (signalIndex original (obs.getD i dummyObs)).isSome = true →
        wait_for_completion original original obs finalUrl = (true, i + 1)) ∧
    (∀ (original preUrl finalUrl : String) (obs : List PageObs),
        (wait_for_completion original preUrl obs finalUrl).1 = false →
        (∀ o ∈ obs, signalIndex original o = none) ∧
          preUrl = original ∧ finalUrl = original) ∧
    (∀ (original : String) (o : PageObs) (k : ℕ),
        signalIndex original o = some k →
        sigHolds original o k = true ∧
          ∀ j, 1 ≤ j → j < k → sigHolds original o j = false) := by
  refine ⟨?_, ?_, ?_⟩
  · intro original finalUrl obs i hi hnone hsome
    unfold wait_for_completion
    rw [if_neg (by simp)]
    have h := wfcGo_first_signal original finalUrl obs 0 i hi hnone hsome
    simpa using h
  · intro original preUrl finalUrl obs h
    unfold wait_for_completion at h
    by_cases hpre : preUrl ≠ original
    · rw [if_pos hpre] at h
      simp at h
    · rw [if_neg hpre] at h
      obtain ⟨h1, h2⟩ := wfcGo_false original finalUrl obs 0 h
      simp only [ne_eq, not_not] at hpre
      exact ⟨h1, hpre, h2⟩
  · intro original o k h
    unfold signalIndex at h
    split_ifs at h with h1 h2 h3 h4 h5 <;>
      simp only [Option.some.injEq] at h <;> subst h
    · exact ⟨by simp [sigHolds, h1], by intro j hj1 hj2; omega⟩
    · refine ⟨by simp [sigHolds, h2], ?_⟩
      intro j hj1 hj2
      interval_cases j
      simp [sigHolds, h1]
    · refine ⟨by simp [sigHolds, h3], ?_⟩
      intro j hj1 hj2
      interval_cases j <;> simp [sigHolds, h1, h2]
    · refine ⟨by simp [sigHolds, h4], ?_⟩
      intro j hj1 hj2
      interval_cases j <;> simp [sigHolds, h1, h2, h3]
    · refine ⟨by simp [sigHolds, h5], ?_⟩
      intro j hj1 hj2
      interval_cases j <;> simp [sigHolds, h1, h2, h3, h4]

/-- Witness for C9: with one signal-free observation followed by a navigated
one, the detector returns true after exactly two iterations. -/
theorem wait_for_completion_witness :
    wait_for_completion "https://w.base" "https://w.base"
      [⟨"https://w.base", false, "x", "y"⟩, ⟨"https://w.done", false, "x", "y"⟩]
      "https://w.base" = (true, 2) :=
  wait_for_completion_first_signal_spec.1 "https://w.base" "https://w.base"
    [⟨"https://w.base", false, "x", "y"⟩, ⟨"https://w.done", false, "x", "y"⟩] 1
    (by decide)
    (by
      intro j hj
      have hj0 : j = 0 := by omega
      subst hj0
      decide)
    (by decide)

end StarWenJuan

